import Mathlib

set_option maxHeartbeats 1000000

/-!
Shallow embedding of the yak-map task dashboard (src/main.rs): the directory
walk of TaskRepository, the tree-metadata computation of refresh_tasks, the
viewport state machine (move up / move down / refresh / render), and the line
renderer (tree_prefix, task_color, status_symbol, render_task, strip_ansi,
highlight_line).  Strings are modelled as Lean String (a list of characters);
Rust byte indices produced by rfind('/') always sit on an ASCII character
boundary, so slicing before the last '/' is modelled as slicing the character
list.
-/

/-- Model of Rust str::starts_with, char-wise on the character list. -/
def strStartsWith (s pre : String) : Bool := pre.data.isPrefixOf s.data

/-- Model of str::replace with the one-character pattern backslash (a
one-character pattern makes replace a character-wise map). -/
def replaceBack (s : String) : String :=
  String.mk (s.data.map (fun c => if c = '\\' then '/' else c))

/-- Relative path of a child entry: the walk strips the root prefix, so a
root-level entry is its own name and a deeper entry is parent-relative-path
++ "/" ++ name. -/
def childRel (rel name : String) : String :=
  if rel = "" then name else rel ++ "/" ++ name

/-- Characters strictly before the last '/' of a character list (Rust
path.rfind('/') followed by path[..pos]); none when there is no slash. -/
def beforeLastSlash : List Char → Option (List Char)
  | [] => none
  | c :: rest =>
    match beforeLastSlash rest with
    | some q => some (c :: q)
    | none => if c = '/' then some [] else none

/-- Parent path of a task path: the substring before the last slash. -/
def parentOf (p : String) : Option String := (beforeLastSlash p.data).map String.mk

/-- Grouping key used by refresh_tasks' by_parent map: the parent path, or the
empty string for a root-level node. -/
def parentKeyStr (p : String) : String := (parentOf p).getD ""

/-- Number of '/' characters in a path. -/
def slashCount (p : String) : Nat := p.data.count '/'

/-- Ancestor chain with explicit fuel: parentOf shortens a path by at least one
character, so p.length steps of fuel always suffice (chainAux_fuel below). -/
def chainAux : Nat → String → List String
  | 0, _ => []
  | fuel + 1, p =>
    match parentOf p with
    | none => []
    | some q => q :: chainAux fuel q

/-- Chain of ancestors of a path, nearest first: parent, grandparent, ...,
root-level prefix.  This is the sequence of values taken by the variable
current in refresh_tasks' continuation loop. -/
def ancestorChain (p : String) : List String := chainAux p.length p

/-- Indices of the nodes whose by_parent key equals key, in discovery order.
by_parent pushes indices while enumerating the task vector, so each group is
an increasing list of indices. -/
def siblingsOf (paths : List String) (key : String) : List Nat :=
  (List.range paths.length).filter (fun i => decide (parentKeyStr (paths.getD i "") = key))

/-- Model of the path_to_index HashMap built by collect: when a path occurs
several times the last insertion wins, hence the last matching index. -/
def pathToIndex (paths : List String) (p : String) : Option Nat :=
  ((List.range paths.length).filter (fun i => decide (paths.getD i "" = p))).getLast?

/-- Model of Iterator::position. -/
def findPos (p : Nat → Bool) : List Nat → Option Nat
  | [] => none
  | x :: rest => if p x then some 0 else (findPos p rest).map (· + 1)

/-- One iteration of refresh_tasks' continuation loop for the ancestor a: look
the ancestor up among the siblings of its own parent and push whether it has a
later sibling; a missing ancestor (lookup falls back to usize::MAX, which
matches no index) pushes nothing. -/
def contStep (paths : List String) (a : String) : List Bool :=
  let sibs := siblingsOf paths (parentKeyStr a)
  match pathToIndex paths a with
  | some j =>
    match findPos (fun x => decide (x = j)) sibs with
    | some pos => [decide (pos + 1 < sibs.length)]
    | none => []
  | none => []

/-- ancestor_continuations of a node: the continuation loop walks the ancestor
chain nearest-first and concatenates each iteration's pushes. -/
def ancestorConts (paths : List String) (p : String) : List Bool :=
  (ancestorChain p).flatMap (contStep paths)

/-- is_last_sibling of the node at index i: refresh_tasks marks the last index
of every by_parent group. -/
def isLastSib (paths : List String) (i : Nat) : Bool :=
  decide ((siblingsOf paths (parentKeyStr (paths.getD i ""))).getLast? = some i)

/-- has_children of a node: some discovered path starts with the node's path
followed by a slash. -/
def hasKids (paths : List String) (p : String) : Bool :=
  paths.any (fun q => strStartsWith q (p ++ "/"))

/-! ### The directory tree and the walk of TaskRepository::list_tasks -/

mutual
/-- A directory tree: the walk only ever looks at sub-directories, so files
are not modelled.  Children are kept in a bespoke mutual list type so that all
recursions below are structural and reduce in the kernel. -/
inductive FsTree where
  | node : EntryList → FsTree

/-- List of (name, subtree) directory entries. -/
inductive EntryList where
  | nil : EntryList
  | cons : String → FsTree → EntryList → EntryList
end

/-- Convert an ordinary list of entries to an EntryList. -/
def toEntryList : List (String × FsTree) → EntryList
  | [] => .nil
  | (n, t) :: rest => .cons n t (toEntryList rest)

/-- Lexicographic strict comparison of character lists, matching Rust's byte
comparison of ASCII directory names. -/
def charListLt : List Char → List Char → Bool
  | [], [] => false
  | [], _ :: _ => true
  | _ :: _, [] => false
  | a :: as_, b :: bs => if a < b then true else if b < a then false else charListLt as_ bs

/-- Stable insertion used by the per-directory sort: an element is placed
before the first existing element that is not smaller than it. -/
def insertEntry (p : String × FsTree) : List (String × FsTree) → List (String × FsTree)
  | [] => [p]
  | q :: rest =>
    if charListLt q.1.data p.1.data then q :: insertEntry p rest else p :: q :: rest

/-- Stable sort by file name, modelling entries.sort_by(file_name cmp). -/
def sortEntryPairs : List (String × FsTree) → List (String × FsTree)
  | [] => []
  | p :: rest => insertEntry p (sortEntryPairs rest)

mutual
/-- Sort every directory level of the tree by name.  walk_dir sorts each
directory's entries as it reads them; sorting all levels up front and then
walking without sorting yields the same traversal, and keeps the walk
structurally recursive. -/
def sortTree : FsTree → FsTree
  | .node es => .node (toEntryList (sortEntryPairs (sortChildren es)))

/-- Recursively sort the subtrees of an entry list and return it as a plain
list, ready to be sorted at this level. -/
def sortChildren : EntryList → List (String × FsTree)
  | .nil => []
  | .cons n t rest => (n, sortTree t) :: sortChildren rest
end

mutual
/-- walk_dir on an already-sorted tree: emit each directory whose relative
path does not start with '.', then recurse into it; a dot-prefixed relative
path is neither emitted nor descended into. -/
def walkSorted : FsTree → String → Nat → List (String × Nat)
  | .node es, rel, d => walkEntries es rel d

/-- The loop body of walk_dir over the sorted entries of one directory. -/
def walkEntries : EntryList → String → Nat → List (String × Nat)
  | .nil, _, _ => []
  | .cons name sub rest, rel, d =>
    let tp := replaceBack (childRel rel name)
    (if strStartsWith tp "." then [] else (tp, d) :: walkSorted sub tp (d + 1))
      ++ walkEntries rest rel d
end

/-- TaskRepository::list_tasks: walk the root with empty relative path at
depth 0 (an absent root yields the empty list, modelled by the empty tree). -/
def listTasks (t : FsTree) : List (String × Nat) := walkSorted (sortTree t) "" 0

/-! ### Task lines and the line renderer -/

/-- TaskState of src/main.rs. -/
inductive TaskState where
  | Wip : TaskState
  | Todo : TaskState
  | Done : TaskState
deriving DecidableEq

/-- TaskLine of src/main.rs. -/
structure TaskLine where
  path : String := ""
  name : String := ""
  yakId : String := ""
  depth : Nat := 0
  state : TaskState := .Todo
  assignedTo : Option String := none
  agentStatus : Option String := none
  hasChildrenFlag : Bool := false
  isLastFlag : Bool := false
  conts : List Bool := []

/-- Color chosen from the lifecycle state alone (the match at the end of
task_color). -/
def stateColor : TaskState → String
  | .Wip => "\x1b[33m"
  | .Done => "\x1b[90m"
  | .Todo => "\x1b[37m"

/-- State::task_color: an agent-status prefix blocked:/done:/wip: returns
early; otherwise the lifecycle state decides. -/
def taskColor (t : TaskLine) : String :=
  match t.agentStatus with
  | some status =>
    if strStartsWith status "blocked:" then "\x1b[31m"
    else if strStartsWith status "done:" then "\x1b[32m"
    else if strStartsWith status "wip:" then "\x1b[33m"
    else stateColor t.state
  | none => stateColor t.state

/-- State::status_symbol. -/
def statusSymbol (t : TaskLine) : Char :=
  match t.agentStatus with
  | some status =>
    if strStartsWith status "done:" then '●'
    else if strStartsWith status "wip:" || strStartsWith status "blocked:" then '●'
    else match t.state with
      | .Wip | .Done => '●'
      | .Todo => '○'
  | none =>
    match t.state with
    | .Wip | .Done => '●'
    | .Todo => '○'

/-- One continuation column of tree_prefix. -/
def contColumn (b : Bool) : String := if b then "\x1b[90m│ \x1b[0m" else "  "

/-- Branch connector of tree_prefix. -/
def connector (isLast : Bool) : String :=
  if isLast then "\x1b[90m╰─\x1b[0m" else "\x1b[90m├─\x1b[0m"

/-- Render the continuation columns right-to-left (cols.iter().rev()). -/
def colsRender (cols : List Bool) : String :=
  String.join (cols.reverse.map contColumn)

/-- State::tree_prefix on the position metadata of a node: the slice
ancestor_continuations[..col_count.min(len)] keeps at most depth - 1 entries,
rendered root-most first, then the branch connector. -/
def treePfx (depth : Nat) (conts : List Bool) (isLast : Bool) : String :=
  if depth = 0 then ""
  else colsRender (conts.take (min (depth - 1) conts.length)) ++ connector isLast

/-- Rust slice v[..m] as a fallible operation: defined exactly when m is at
most the length (otherwise the program would abort). -/
def sliceTo (l : List Bool) (m : Nat) : Option (List Bool) :=
  if m ≤ l.length then some (l.take m) else none

/-- tree_prefix with the slice made explicit as a fallible step, to express
that the guarded slice can never abort. -/
def treePfxChecked (depth : Nat) (conts : List Bool) (isLast : Bool) : Option String :=
  if depth = 0 then some ""
  else
    match sliceTo conts (min (depth - 1) conts.length) with
    | some cols => some (colsRender cols ++ connector isLast)
    | none => none

/-- State::render_task. -/
def renderTask (t : TaskLine) : String :=
  let pfx := treePfx t.depth t.conts t.isLastFlag
  let status := statusSymbol t
  let color := taskColor t
  let name :=
    if t.state = .Done then "\x1b[9m" ++ t.name ++ "\x1b[0m" else t.name
  let assignment :=
    match t.assignedTo with
    | some agent => " [\x1b[36m" ++ agent ++ "\x1b[0m]"
    | none => ""
  let statusColor := if t.state = .Done then "\x1b[90m" else color
  pfx ++ statusColor ++ String.singleton status ++ " " ++ name ++ assignment ++ "\x1b[0m"

/-! ### ANSI machinery: strip_ansi and highlight_line -/

/-- The escape character. -/
def escChar : Char := '\x1b'

/-- The reset sequence embedded by the renderer. -/
def resetSeq : List Char := ['\x1b', '[', '0', 'm']

/-- The explicit background sequence of highlight_line
(the characters of "\x1b[48;5;237m"). -/
def bgSeq : List Char :=
  ['\x1b', '[', '4', '8', ';', '5', ';', '2', '3', '7', 'm']

/-- Scanner state for strip_ansi: outside any escape sequence, just after an
ESC whose follower is still unread, or inside a CSI sequence. -/
inductive ScanMode where
  | plain : ScanMode
  | afterEsc : ScanMode
  | inCsi : ScanMode
deriving DecidableEq

/-- strip_ansi as a three-state scanner over the character list, mirroring
the Rust loop with its one-character peek inlined as the afterEsc state:
outside a sequence an ESC is held back (afterEsc); if '[' follows, both are
dropped and the scan enters the CSI (inCsi) where characters are dropped up
to and including the first ASCII-alphabetic one; if anything else follows the
held ESC it is emitted as a visible character, as the Rust push of a
non-sequence ESC does. -/
def stripGo : ScanMode → List Char → List Char
  | .plain, [] => []
  | .afterEsc, [] => [escChar]
  | .inCsi, [] => []
  | .plain, c :: rest =>
    if c = escChar then stripGo .afterEsc rest else c :: stripGo .plain rest
  | .afterEsc, c :: rest =>
    if c = '[' then stripGo .inCsi rest
    else if c = escChar then escChar :: stripGo .afterEsc rest
    else escChar :: c :: stripGo .plain rest
  | .inCsi, c :: rest =>
    if c.isAlpha then stripGo .plain rest else stripGo .inCsi rest

/-- strip_ansi on a character list. -/
def stripAnsi (l : List Char) : List Char := stripGo .plain l

/-- line.replace of the reset sequence by reset-then-background,
specialised to the concrete four-character pattern: left-to-right,
non-overlapping. -/
def replaceResets : List Char → List Char
  | '\x1b' :: '[' :: '0' :: 'm' :: rest => resetSeq ++ bgSeq ++ replaceResets rest
  | c :: rest => c :: replaceResets rest
  | [] => []

/-- State::highlight_line: background, the line with the background
re-asserted after every reset, the padding, and a final reset. -/
def highlightLine (line padding : List Char) : List Char :=
  bgSeq ++ replaceResets line ++ padding ++ resetSeq

/-- Well-formedness scanner for a styled line: a sequence of non-escape
characters and complete CSI sequences (ESC, '[', non-alphabetic non-escape
characters, then one ASCII-alphabetic terminator).  Every line render_task
builds from escape-free field values has this shape. -/
def cleanGo : ScanMode → List Char → Bool
  | .plain, [] => true
  | .afterEsc, [] => false
  | .inCsi, [] => false
  | .plain, c :: rest =>
    if c = escChar then cleanGo .afterEsc rest else cleanGo .plain rest
  | .afterEsc, c :: rest => if c = '[' then cleanGo .inCsi rest else false
  | .inCsi, c :: rest =>
    if c.isAlpha then cleanGo .plain rest
    else if c = escChar then false
    else cleanGo .inCsi rest

/-- A line is clean when the scanner accepts it from the plain state. -/
def cleanLine (l : List Char) : Bool := cleanGo .plain l

/-! ### Viewport state machine -/

/-- The widget state relevant to the viewport: the discovered task list and
the two persistent indices. -/
structure AppState where
  tasks : List (String × Nat)
  selected : Nat
  scroll : Nat
deriving DecidableEq

/-- State::refresh_tasks viewed at the viewport level: rescan, store the new
list, reset the selection to 0 when the list is empty, otherwise clamp it to
the last index; the scroll offset is never touched. -/
def refreshTasks (s : AppState) (t : FsTree) : AppState :=
  let ts := listTasks t
  if ts.isEmpty then { tasks := ts, selected := 0, scroll := s.scroll }
  else
    { tasks := ts,
      selected := if s.selected ≥ ts.length then ts.length - 1 else s.selected,
      scroll := s.scroll }

/-- The Up / 'k' key handler. -/
def moveUp (s : AppState) : AppState :=
  if 0 < s.selected then { s with selected := s.selected - 1 } else s

/-- The Down / 'j' key handler. -/
def moveDown (s : AppState) : AppState :=
  if s.selected + 1 < s.tasks.length then { s with selected := s.selected + 1 } else s

/-- Rows taken by the toast block. -/
def toastRowCount (toast : Bool) : Nat := if toast then 2 else 0

/-- The scroll-correction step of State::render: skipped entirely when the
task list is empty (the placeholder is printed instead); otherwise the scroll
offset follows the selection by the minimum amount. -/
def renderScroll (s : AppState) (rows : Nat) (toast : Bool) : AppState :=
  if s.tasks.isEmpty then s
  else if s.selected < s.scroll then { s with scroll := s.selected }
  else if 0 < rows - (3 + toastRowCount toast) ∧
      s.selected ≥ s.scroll + (rows - (3 + toastRowCount toast)) then
    { s with scroll := s.selected - (rows - (3 + toastRowCount toast)) + 1 }
  else s

/-- The operations a host session can apply to the widget state. -/
inductive Op where
  | up : Op
  | down : Op
  | rebuild : FsTree → Op
  | render : Nat → Bool → Op

/-- Apply one operation. -/
def applyOp (s : AppState) : Op → AppState
  | .up => moveUp s
  | .down => moveDown s
  | .rebuild t => refreshTasks s t
  | .render rows toast => renderScroll s rows toast

/-- Apply a sequence of operations in order. -/
def applyOps (s : AppState) (ops : List Op) : AppState := ops.foldl applyOp s

/-- The state the widget starts from: no tasks, selection and scroll at 0. -/
def initState : AppState := { tasks := [], selected := 0, scroll := 0 }

/-! ### Claim C1: dot-directory exclusion in the walk -/

mutual
/-- Every path the walk emits has itself passed the dot guard of walk_dir:
paths that start with '.' are neither pushed nor used as the relative path of
a recursive call. -/
theorem walkSorted_no_dot : ∀ (t : FsTree) (rel : String) (d : Nat),
    ∀ p ∈ walkSorted t rel d, strStartsWith p.1 "." = false
  | .node es, rel, d => walkEntries_no_dot es rel d

/-- The per-directory loop of the walk emits no dot-prefixed path. -/
theorem walkEntries_no_dot : ∀ (es : EntryList) (rel : String) (d : Nat),
    ∀ p ∈ walkEntries es rel d, strStartsWith p.1 "." = false
  | .nil, _, _ => by
      intro p hp
      simp [walkEntries] at hp
  | .cons name sub rest, rel, d => by
      intro p hp
      simp only [walkEntries, List.mem_append] at hp
      rcases hp with h | h
      · by_cases hg : strStartsWith (replaceBack (childRel rel name)) "." = true
        · rw [if_pos hg] at h
          simp at h
        · rw [if_neg hg] at h
          rcases List.mem_cons.mp h with rfl | h
          · exact Bool.eq_false_iff.mpr hg
          · exact walkSorted_no_dot sub _ _ p h
      · exact walkEntries_no_dot rest rel d p h
end

/-- Whether a character list contains a slash immediately followed by a
dot. -/
def hasSlashDot : List Char → Bool
  | '/' :: '.' :: _ => true
  | _ :: rest => hasSlashDot rest
  | [] => false

/-- A path contains a segment beginning with '.' iff it starts with '.' or
contains a slash immediately followed by a dot. -/
def hasDotSegment (p : String) : Bool :=
  strStartsWith p "." || hasSlashDot p.data

/-- The tree used to refute C1 as stated: a root directory parent containing
a dot-named sub-directory .hidden. -/
def treeC1 : FsTree :=
  .node (toEntryList [("parent", .node (toEntryList [(".hidden", .node .nil)]))])

/-- C1 counterexample: the nested dot-directory parent/.hidden is emitted as a
task node (and was descended into), so a discovered path does contain a
segment beginning with '.': the walk's guard tests the whole relative path,
not the directory's own name. -/
theorem c1_nested_dot_discovered_cex :
    ("parent/.hidden", 1) ∈ listTasks treeC1 ∧ hasDotSegment "parent/.hidden" = true := by
  decide

/-- C1 amended: listTasks excludes every directory whose relative path starts
with '.' — equivalently, root-level dot-named directories — such a directory
being neither emitted nor descended into; no discovered path starts with '.'
(nested dot-named directories, whose relative paths start with their root
ancestor's name, are discovered). -/
theorem c1_no_dot_relative_path (t : FsTree) :
    ∀ p ∈ listTasks t, strStartsWith p.1 "." = false :=
  fun p hp => walkSorted_no_dot (sortTree t) "" 0 p hp

/-- Witness for C1: the amended theorem applied to the concrete tree and the
concrete discovered node parent/.hidden. -/
theorem c1_no_dot_relative_path_witness :
    ("parent/.hidden", 1) ∈ listTasks treeC1 ∧
      strStartsWith "parent/.hidden" "." = false :=
  ⟨by decide, c1_no_dot_relative_path treeC1 ("parent/.hidden", 1) (by decide)⟩

/-! ### Claim C3: the parent/child/grandchild scenario -/

/-- The directory tree of the C3 scenario. -/
def treeC3 : FsTree :=
  .node (toEntryList
    [("parent", .node (toEntryList
      [("child", .node (toEntryList [("grandchild", .node .nil)])),
       ("child2", .node .nil)]))])

/-- The discovered paths of the C3 scenario, in discovery order. -/
def pathsC3 : List String := (listTasks treeC3).map Prod.fst

/-- C3 counterexample: for grandchild the computed continuation sequence is
not [true]: the loop pushes one entry per ancestor (here [true, false],
length = depth = 2), not depth - 1 entries. -/
theorem c3_grandchild_conts_cex :
    ¬ ancestorConts pathsC3 "parent/child/grandchild" = [true] := by decide

/-- C3 amended: for the discovered node set parent, parent/child,
parent/child/grandchild, parent/child2, the node parent/child/grandchild has
continuation sequence [true, false] (nearest ancestor first: child has a
later sibling child2, parent has none), isLastSibling true, and — since the
renderer consumes only the first depth - 1 = 1 entries — a rendered prefix of
exactly one vertical-continuation column followed by the "last" connector. -/
theorem c3_grandchild_layout :
    pathsC3 = ["parent", "parent/child", "parent/child/grandchild", "parent/child2"] ∧
    ancestorConts pathsC3 "parent/child/grandchild" = [true, false] ∧
    isLastSib pathsC3 2 = true ∧
    treePfx 2 (ancestorConts pathsC3 "parent/child/grandchild") true
      = "\x1b[90m│ \x1b[0m" ++ "\x1b[90m╰─\x1b[0m" := by decide

/-! ### Claim C5: rebuild clamping -/

/-- C5: a rebuild stores the freshly scanned list; an empty scan resets the
selection to 0, a non-empty scan clamps a too-large selection to the last
index and keeps a valid selection; the scroll offset is never changed (and
the embedding is a total function: the only subtraction is guarded by
non-emptiness). -/
theorem c5_rebuild_clamps (s : AppState) (t : FsTree) :
    (refreshTasks s t).scroll = s.scroll ∧
    (listTasks t = [] →
      (refreshTasks s t).tasks = [] ∧ (refreshTasks s t).selected = 0) ∧
    (listTasks t ≠ [] →
      (refreshTasks s t).tasks = listTasks t ∧
      (s.selected ≥ (listTasks t).length →
        (refreshTasks s t).selected = (listTasks t).length - 1) ∧
      (s.selected < (listTasks t).length →
        (refreshTasks s t).selected = s.selected)) := by
  by_cases h : (listTasks t).isEmpty
  · have he : listTasks t = [] := List.isEmpty_iff.mp h
    refine ⟨?_, fun _ => ⟨?_, ?_⟩, fun hne => absurd he hne⟩ <;> simp [refreshTasks, h, he]
  · have hne : ¬ listTasks t = [] := fun he => by simp [he] at h
    refine ⟨?_, fun he => absurd he hne, fun _ => ⟨?_, fun hge => ?_, fun hlt => ?_⟩⟩
    · simp [refreshTasks, h]
    · simp [refreshTasks, h]
    · simp [refreshTasks, h, hge]
    · simp [refreshTasks, h, Nat.not_le.mpr hlt]

/-- A two-task tree for the C5 witness. -/
def treeC5 : FsTree := .node (toEntryList [("a", .node .nil), ("b", .node .nil)])

/-- Witness for C5: rebuilding with a shorter two-element list from a state
selecting index 5 clamps the selection to 1 and keeps the scroll offset. -/
theorem c5_rebuild_clamps_witness :
    (refreshTasks { tasks := [("x", 0), ("y", 0), ("z", 0)], selected := 5, scroll := 7 }
        treeC5).selected = (listTasks treeC5).length - 1 ∧
    (refreshTasks { tasks := [("x", 0), ("y", 0), ("z", 0)], selected := 5, scroll := 7 }
        treeC5).scroll = 7 := by
  have h := c5_rebuild_clamps
    { tasks := [("x", 0), ("y", 0), ("z", 0)], selected := 5, scroll := 7 } treeC5
  exact ⟨(h.2.2 (by decide)).2.1 (by decide), h.1⟩

/-! ### Claim C9: tree_prefix consumes at most depth - 1 entries and is safe -/

/-- C9: the prefix renderer with the slice modelled as a fallible operation
always succeeds (the slice bound is explicitly clamped by min to the sequence
length, so it never indexes past it, whatever the relation between depth and
the sequence length), and the rendered prefix depends only on the first
depth - 1 continuation entries. -/
theorem c9_tree_pfx_safe (depth : Nat) (conts : List Bool) (isLast : Bool) :
    treePfxChecked depth conts isLast = some (treePfx depth conts isLast) ∧
    treePfx depth conts isLast = treePfx depth (conts.take (depth - 1)) isLast := by
  constructor
  · by_cases h : depth = 0
    · simp [treePfxChecked, treePfx, h]
    · simp [treePfxChecked, treePfx, sliceTo, h, Nat.min_le_right]
  · by_cases h : depth = 0
    · simp [treePfx, h]
    · simp only [treePfx, h, if_false]
      have harg : conts.take (min (depth - 1) conts.length)
          = (conts.take (depth - 1)).take
              (min (depth - 1) (conts.take (depth - 1)).length) := by
        rw [List.take_take, List.length_take]
        congr 1
        omega
      rw [harg]

/-! ### Claim C10: moves on an empty list -/

/-- The move handlers never change the task list. -/
theorem moveUp_tasks (s : AppState) : (moveUp s).tasks = s.tasks := by
  unfold moveUp
  split <;> rfl

/-- The move handlers never change the task list. -/
theorem moveDown_tasks (s : AppState) : (moveDown s).tasks = s.tasks := by
  unfold moveDown
  split <;> rfl

/-- The scroll correction of render changes neither the task list nor the
selection. -/
theorem renderScroll_tasks (s : AppState) (rows : Nat) (toast : Bool) :
    (renderScroll s rows toast).tasks = s.tasks := by
  unfold renderScroll
  split
  · rfl
  · split
    · rfl
    · split <;> rfl

/-- The scroll correction of render changes neither the task list nor the
selection. -/
theorem renderScroll_selected (s : AppState) (rows : Nat) (toast : Bool) :
    (renderScroll s rows toast).selected = s.selected := by
  unfold renderScroll
  split
  · rfl
  · split
    · rfl
    · split <;> rfl

theorem emptySelZero_step (s : AppState) (h : s.tasks = [] → s.selected = 0) (o : Op) :
    (applyOp s o).tasks = [] → (applyOp s o).selected = 0 := by
  cases o with
  | up =>
    intro ht
    have hs : s.tasks = [] := (moveUp_tasks s) ▸ ht
    have h0 : s.selected = 0 := h hs
    simp [applyOp, moveUp, h0]
  | down =>
    intro ht
    have hs : s.tasks = [] := (moveDown_tasks s) ▸ ht
    have h0 : s.selected = 0 := h hs
    simp [applyOp, moveDown, hs, h0]
  | rebuild t =>
    intro ht
    by_cases he : (listTasks t).isEmpty
    · simp [applyOp, refreshTasks, he]
    · exfalso
      have hts : (refreshTasks s t).tasks = listTasks t := by simp [refreshTasks, he]
      rw [applyOp] at ht
      rw [hts] at ht
      simp [ht] at he
  | render rows toast =>
    intro ht
    have hs : s.tasks = [] := (renderScroll_tasks s rows toast) ▸ ht
    rw [applyOp]
    rw [renderScroll_selected]
    exact h hs

/-- The empty-list invariant along any operation sequence. -/
theorem emptySelZero (ops : List Op) :
    ∀ s : AppState, (s.tasks = [] → s.selected = 0) →
      ((applyOps s ops).tasks = [] → (applyOps s ops).selected = 0) := by
  induction ops with
  | nil => exact fun s h => h
  | cons o rest ih =>
    intro s h
    exact ih (applyOp s o) (emptySelZero_step s h o)

/-- C10: whenever a state reachable from the initial state has an empty task
list, both move operations leave the whole state unchanged (the selection
stays 0); the guards of the source make both handlers no-ops, so the
decrement never underflows. -/
theorem c10_empty_list_moves_noop (ops : List Op)
    (hempty : (applyOps initState ops).tasks = []) :
    moveUp (applyOps initState ops) = applyOps initState ops ∧
    moveDown (applyOps initState ops) = applyOps initState ops := by
  have hsel : (applyOps initState ops).selected = 0 :=
    emptySelZero ops initState (fun _ => rfl) hempty
  constructor
  · simp [moveUp, hsel]
  · simp [moveDown, hempty]

/-- Witness for C10: after one down-move from the initial (empty) state the
list is empty and both moves are no-ops. -/
theorem c10_empty_list_moves_noop_witness :
    (applyOps initState [Op.down]).tasks = [] ∧
    (moveUp (applyOps initState [Op.down]) = applyOps initState [Op.down] ∧
      moveDown (applyOps initState [Op.down]) = applyOps initState [Op.down]) :=
  ⟨by decide, c10_empty_list_moves_noop [Op.down] (by decide)⟩

/-! ### Claim C2: the viewport invariant at render time -/

/-- C2: after any sequence of move/rebuild/render operations followed by a
render whose frame yields a positive number of visible rows while the task
list is non-empty, the corrected state satisfies
scroll <= selected < scroll + visibleRows (visibleRows = rows minus the three
fixed chrome rows minus the toast rows). -/
theorem c2_viewport_invariant (s0 : AppState) (ops : List Op) (rows : Nat) (toast : Bool)
    (hne : (applyOps s0 ops).tasks ≠ [])
    (hvis : 0 < rows - (3 + toastRowCount toast)) :
    (applyOps s0 (ops ++ [Op.render rows toast])).scroll
        ≤ (applyOps s0 (ops ++ [Op.render rows toast])).selected ∧
    (applyOps s0 (ops ++ [Op.render rows toast])).selected
        < (applyOps s0 (ops ++ [Op.render rows toast])).scroll
            + (rows - (3 + toastRowCount toast)) := by
  have happ : applyOps s0 (ops ++ [Op.render rows toast])
      = renderScroll (applyOps s0 ops) rows toast := by
    unfold applyOps
    rw [List.foldl_append]
    rfl
  rw [happ]
  set s := applyOps s0 ops with hs
  have hemp : ¬ s.tasks.isEmpty = true := by
    cases h : s.tasks.isEmpty
    · simp
    · exact absurd (List.isEmpty_iff.mp h) hne
  unfold renderScroll
  rw [if_neg hemp]
  by_cases h1 : s.selected < s.scroll
  · rw [if_pos h1]
    dsimp only
    omega
  · rw [if_neg h1]
    by_cases h2 : 0 < rows - (3 + toastRowCount toast) ∧
        s.selected ≥ s.scroll + (rows - (3 + toastRowCount toast))
    · rw [if_pos h2]
      dsimp only
      omega
    · rw [if_neg h2]
      have hlt : s.selected < s.scroll + (rows - (3 + toastRowCount toast)) := by
        rcases Nat.lt_or_ge s.selected (s.scroll + (rows - (3 + toastRowCount toast)))
          with h | h
        · exact h
        · exact absurd ⟨hvis, h⟩ h2
      exact ⟨Nat.le_of_not_lt h1, hlt⟩

/-- Witness for C2: one non-empty task, an empty operation history, a
10-row frame and no toast. -/
theorem c2_viewport_invariant_witness :
    ((applyOps { tasks := [("a", 0)], selected := 0, scroll := 0 } []).tasks ≠ [] ∧
      0 < 10 - (3 + toastRowCount false)) ∧
    ((applyOps { tasks := [("a", 0)], selected := 0, scroll := 0 }
          ([] ++ [Op.render 10 false])).scroll
        ≤ (applyOps { tasks := [("a", 0)], selected := 0, scroll := 0 }
          ([] ++ [Op.render 10 false])).selected ∧
      (applyOps { tasks := [("a", 0)], selected := 0, scroll := 0 }
          ([] ++ [Op.render 10 false])).selected
        < (applyOps { tasks := [("a", 0)], selected := 0, scroll := 0 }
          ([] ++ [Op.render 10 false])).scroll + (10 - (3 + toastRowCount false))) :=
  ⟨⟨by decide, by decide⟩,
    c2_viewport_invariant { tasks := [("a", 0)], selected := 0, scroll := 0 } [] 10 false
      (by decide) (by decide)⟩

/-! ### Claim C8: color and symbol precedence -/

/-- If a string starts with a concrete pattern, its first character is the
pattern's first character. -/
theorem prefix_first_char (pre s : String) (c : Char) (cs : List Char)
    (hpre : pre.data = c :: cs) (h : strStartsWith s pre = true) :
    ∃ t, s.data = c :: t := by
  unfold strStartsWith at h
  obtain ⟨t, ht⟩ := List.isPrefixOf_iff_prefix.mp h
  rw [hpre] at ht
  exact ⟨cs ++ t, by rw [← ht]; simp⟩

/-- Two patterns with distinct first characters cannot both be prefixes. -/
theorem distinct_first_char_not (s pre1 pre2 : String) (c1 c2 : Char)
    (cs1 cs2 : List Char) (h1 : pre1.data = c1 :: cs1) (h2 : pre2.data = c2 :: cs2)
    (hne : c1 ≠ c2) (h : strStartsWith s pre1 = true) :
    strStartsWith s pre2 = false := by
  cases hb : strStartsWith s pre2
  · rfl
  · obtain ⟨t1, ht1⟩ := prefix_first_char pre1 s c1 cs1 h1 h
    obtain ⟨t2, ht2⟩ := prefix_first_char pre2 s c2 cs2 h2 hb
    rw [ht1] at ht2
    exact absurd (List.cons.inj ht2).1 hne

/-- C8: agent-status prefixes decide the color with precedence over the
lifecycle state (blocked: red, done: green, wip: yellow); absent such a
prefix the lifecycle state decides (Wip yellow, Done dim gray, Todo white);
and agent status "blocked: waiting" over a Todo lifecycle renders red with
the filled circle, not the Todo open circle. -/
theorem c8_color_and_symbol :
    (∀ t : TaskLine, ∀ st : String, t.agentStatus = some st →
        strStartsWith st "blocked:" = true → taskColor t = "\x1b[31m") ∧
    (∀ t : TaskLine, ∀ st : String, t.agentStatus = some st →
        strStartsWith st "done:" = true → taskColor t = "\x1b[32m") ∧
    (∀ t : TaskLine, ∀ st : String, t.agentStatus = some st →
        strStartsWith st "wip:" = true → taskColor t = "\x1b[33m") ∧
    (∀ t : TaskLine,
        (t.agentStatus = none ∨ ∃ st, t.agentStatus = some st ∧
          strStartsWith st "blocked:" = false ∧ strStartsWith st "done:" = false ∧
          strStartsWith st "wip:" = false) →
        taskColor t = stateColor t.state) ∧
    stateColor .Wip = "\x1b[33m" ∧ stateColor .Done = "\x1b[90m" ∧
    stateColor .Todo = "\x1b[37m" ∧
    (∀ t : TaskLine, t.agentStatus = some "blocked: waiting" → t.state = .Todo →
        taskColor t = "\x1b[31m" ∧ statusSymbol t = '●' ∧ ('●' : Char) ≠ '○') := by
  refine ⟨?_, ?_, ?_, ?_, rfl, rfl, rfl, ?_⟩
  · intro t st hsome hpref
    simp [taskColor, hsome, hpref]
  · intro t st hsome hpref
    have hnb : strStartsWith st "blocked:" = false :=
      distinct_first_char_not st "done:" "blocked:" 'd' 'b'
        ['o', 'n', 'e', ':'] ['l', 'o', 'c', 'k', 'e', 'd', ':']
        (by decide) (by decide) (by decide) hpref
    simp [taskColor, hsome, hnb, hpref]
  · intro t st hsome hpref
    have hnb : strStartsWith st "blocked:" = false :=
      distinct_first_char_not st "wip:" "blocked:" 'w' 'b'
        ['i', 'p', ':'] ['l', 'o', 'c', 'k', 'e', 'd', ':']
        (by decide) (by decide) (by decide) hpref
    have hnd : strStartsWith st "done:" = false :=
      distinct_first_char_not st "wip:" "done:" 'w' 'd'
        ['i', 'p', ':'] ['o', 'n', 'e', ':']
        (by decide) (by decide) (by decide) hpref
    simp [taskColor, hsome, hnb, hnd, hpref]
  · intro t h
    rcases h with hnone | ⟨st, hsome, hb, hd, hw⟩
    · simp [taskColor, hnone]
    · simp [taskColor, hsome, hb, hd, hw]
  · intro t hsome hstate
    refine ⟨?_, ?_, by decide⟩
    · simp [taskColor, hsome, (by decide : strStartsWith "blocked: waiting" "blocked:" = true)]
    · simp [statusSymbol, hsome,
        (by decide : strStartsWith "blocked: waiting" "blocked:" = true),
        (by decide : strStartsWith "blocked: waiting" "done:" = false),
        (by decide : strStartsWith "blocked: waiting" "wip:" = false)]

/-- Witness for C8: the blocked-over-Todo scenario at a concrete task line. -/
theorem c8_color_and_symbol_witness :
    taskColor { agentStatus := some "blocked: waiting", state := .Todo } = "\x1b[31m" ∧
    statusSymbol { agentStatus := some "blocked: waiting", state := .Todo } = '●' ∧
    ('●' : Char) ≠ '○' :=
  c8_color_and_symbol.2.2.2.2.2.2.2
    { agentStatus := some "blocked: waiting", state := .Todo } rfl rfl

/-! ### Claims C7 and C4: last-sibling marking and ancestor continuations -/

/-- getD at an index below the length is the corresponding element. -/
theorem getD_eq_elem {α : Type} (l : List α) (d : α) (i : Nat) (h : i < l.length) :
    l.getD i d = l[i] := by
  rw [List.getD_eq_getElem?_getD, List.getElem?_eq_getElem h]
  rfl

/-- Characterisation of the last element of a filtered range: it satisfies the
predicate, and nothing beyond it does. -/
theorem getLast_filter_range_spec (p : Nat → Bool) (n : Nat) (i : Nat) (hi : i < n)
    (hp : p i = true) :
    ∃ m, ((List.range n).filter p).getLast? = some m ∧ m < n ∧ p m = true ∧
      ∀ j, m < j → j < n → p j = false := by
  induction n with
  | zero => omega
  | succ k ih =>
    rw [List.range_succ, List.filter_append]
    by_cases hk : p k = true
    · refine ⟨k, ?_, Nat.lt_succ_self k, hk, fun j hj1 hj2 => by omega⟩
      rw [show List.filter p [k] = [k] from by simp [hk]]
      exact List.getLast?_concat _
    · have hkf : p k = false := by
        cases h : p k
        · rfl
        · exact absurd h hk
      have hik : i < k := by
        rcases Nat.lt_or_ge i k with h | h
        · exact h
        · have : i = k := by omega
          rw [this, hkf] at hp
          exact Bool.noConfusion hp
      obtain ⟨m, h1, h2, h3, h4⟩ := ih hik
      refine ⟨m, ?_, by omega, h3, ?_⟩
      · rw [show List.filter p [k] = [] from by simp [hkf], List.append_nil]
        exact h1
      · intro j hj1 hj2
        rcases Nat.lt_or_ge j k with h | h
        · exact h4 j hj1 h
        · have : j = k := by omega
          rw [this]
          exact hkf

/-- C7: for every node index, is_last_sibling holds exactly when no later
node shares its parent key (so the marked node is the last of its group in
discovery order), and every node's group does contain a marked node — hence
exactly one marked node per group. -/
theorem c7_last_sibling (paths : List String) (i : Nat) (hi : i < paths.length) :
    (isLastSib paths i = true ↔
      ∀ j, i < j → j < paths.length →
        parentKeyStr (paths.getD j "") ≠ parentKeyStr (paths.getD i "")) ∧
    (∃ m, m < paths.length ∧
      parentKeyStr (paths.getD m "") = parentKeyStr (paths.getD i "") ∧
      isLastSib paths m = true) := by
  obtain ⟨m, hlast, hmn, hpm, hafter⟩ :=
    getLast_filter_range_spec
      (fun j => decide (parentKeyStr (paths.getD j "") = parentKeyStr (paths.getD i "")))
      paths.length i hi (by simp)
  have hkeym : parentKeyStr (paths.getD m "") = parentKeyStr (paths.getD i "") :=
    of_decide_eq_true hpm
  constructor
  · constructor
    · intro h j hj1 hj2
      have hsome : ((siblingsOf paths (parentKeyStr (paths.getD i ""))).getLast?) = some i :=
        of_decide_eq_true h
      have hmi : m = i := by
        have := hlast.symm.trans hsome
        exact Option.some.inj this
      intro hkey
      have := hafter j (hmi ▸ hj1) hj2
      rw [decide_eq_false_iff_not] at this
      exact this hkey
    · intro h
      have hmi : m = i := by
        rcases Nat.lt_trichotomy m i with hlt | heq | hgt
        · have := hafter i hlt hi
          simp at this
        · exact heq
        · exact absurd hkeym (h m hgt hmn)
      unfold isLastSib
      rw [decide_eq_true_iff]
      rw [hmi] at hlast
      exact hlast
  · refine ⟨m, hmn, hkeym, ?_⟩
    unfold isLastSib
    rw [decide_eq_true_iff]
    rw [hkeym]
    exact hlast

/-- Witness for C7: index 1 (parent/child) in the C3 scenario: it is not the
last of its group (parent/child2 follows), and index 3 is the marked one. -/
theorem c7_last_sibling_witness :
    (1 : Nat) < pathsC3.length ∧
    ((isLastSib pathsC3 1 = true ↔
      ∀ j, 1 < j → j < pathsC3.length →
        parentKeyStr (pathsC3.getD j "") ≠ parentKeyStr (pathsC3.getD 1 "")) ∧
    (∃ m, m < pathsC3.length ∧
      parentKeyStr (pathsC3.getD m "") = parentKeyStr (pathsC3.getD 1 "") ∧
      isLastSib pathsC3 m = true)) :=
  ⟨by decide, c7_last_sibling pathsC3 1 (by decide)⟩

/-- A path's parent is strictly shorter. -/
theorem beforeLastSlash_length : ∀ {cs q : List Char},
    beforeLastSlash cs = some q → q.length < cs.length := by
  intro cs
  induction cs with
  | nil => intro q h; simp [beforeLastSlash] at h
  | cons c rest ih =>
    intro q h
    rw [beforeLastSlash] at h
    cases hr : beforeLastSlash rest with
    | some q2 =>
      rw [hr] at h
      have hq : q = c :: q2 := (Option.some.inj h).symm
      subst hq
      have := ih hr
      simp
      omega
    | none =>
      rw [hr] at h
      by_cases hc : c = '/'
      · rw [if_pos hc] at h
        have hq : q = [] := (Option.some.inj h).symm
        subst hq
        simp
      · rw [if_neg hc] at h
        exact absurd h (by simp)

/-- A path's parent is strictly shorter. -/
theorem parentOf_length {p q : String} (h : parentOf p = some q) : q.length < p.length := by
  unfold parentOf at h
  cases hb : beforeLastSlash p.data with
  | none =>
    rw [hb] at h
    simp at h
  | some cs =>
    rw [hb] at h
    simp at h
    have : q.data = cs := by rw [← h]
    show q.data.length < p.data.length
    rw [this]
    exact beforeLastSlash_length hb

/-- The chain fuel is irrelevant once it is at least the path length. -/
theorem chainAux_congr : ∀ (f1 : Nat) (f2 : Nat) (p : String), p.length ≤ f1 →
    p.length ≤ f2 → chainAux f1 p = chainAux f2 p := by
  intro f1
  induction f1 with
  | zero =>
    intro f2 p h1 _
    have hdata : p.data = [] := List.length_eq_zero.mp (Nat.le_zero.mp h1)
    have hnone : parentOf p = none := by
      unfold parentOf
      rw [hdata]
      rfl
    cases f2 with
    | zero => rfl
    | succ m => simp only [chainAux, hnone]
  | succ k ih =>
    intro f2 p h1 h2
    cases f2 with
    | zero =>
      have hdata : p.data = [] := List.length_eq_zero.mp (Nat.le_zero.mp h2)
      have hnone : parentOf p = none := by
        unfold parentOf
        rw [hdata]
        rfl
      simp only [chainAux, hnone]
    | succ m =>
      cases hpo : parentOf p with
      | none => simp only [chainAux, hpo]
      | some q =>
        have hq : q.length < p.length := parentOf_length hpo
        simp only [chainAux, hpo]
        rw [ih m q (by omega) (by omega)]

/-- The one-step unfolding of the ancestor chain. -/
theorem ancestorChain_unfold (p : String) :
    ancestorChain p =
      match parentOf p with
      | none => []
      | some q => q :: ancestorChain q := by
  unfold ancestorChain
  cases hpo : parentOf p with
  | none =>
    cases hl : p.length with
    | zero => simp only [hl, chainAux]
    | succ k => simp only [hl, chainAux, hpo]
  | some q =>
    have hpos : 0 < p.length := by
      rcases Nat.eq_zero_or_pos p.length with h0 | h
      · exfalso
        have hdata : p.data = [] := List.length_eq_zero.mp h0
        unfold parentOf at hpo
        rw [hdata] at hpo
        simp [beforeLastSlash] at hpo
      · exact h
    obtain ⟨k, hk⟩ := Nat.exists_eq_succ_of_ne_zero (by omega : p.length ≠ 0)
    simp only [hk, chainAux, hpo]
    have hq : q.length ≤ k := by
      have := parentOf_length hpo
      omega
    rw [chainAux_congr k q.length q hq (le_refl _)]

/-- A list with no slash before the last slash has no slash at all. -/
theorem beforeLastSlash_none_count : ∀ {cs : List Char},
    beforeLastSlash cs = none → cs.count '/' = 0 := by
  intro cs
  induction cs with
  | nil => intro _; rfl
  | cons c rest ih =>
    intro h
    rw [beforeLastSlash] at h
    cases hr : beforeLastSlash rest with
    | some q2 =>
      rw [hr] at h
      exact absurd h (by simp)
    | none =>
      rw [hr] at h
      by_cases hc : c = '/'
      · rw [if_pos hc] at h
        exact absurd h (by simp)
      · rw [List.count_cons]
        rw [ih hr]
        simp [hc]

/-- Taking the parent removes exactly one slash. -/
theorem beforeLastSlash_count : ∀ {cs q : List Char},
    beforeLastSlash cs = some q → cs.count '/' = q.count '/' + 1 := by
  intro cs
  induction cs with
  | nil => intro q h; simp [beforeLastSlash] at h
  | cons c rest ih =>
    intro q h
    rw [beforeLastSlash] at h
    cases hr : beforeLastSlash rest with
    | some q2 =>
      rw [hr] at h
      have hq : q = c :: q2 := (Option.some.inj h).symm
      subst hq
      rw [List.count_cons, List.count_cons, ih hr]
      omega
    | none =>
      rw [hr] at h
      by_cases hc : c = '/'
      · rw [if_pos hc] at h
        have hq : q = [] := (Option.some.inj h).symm
        subst hq
        rw [List.count_cons, beforeLastSlash_none_count hr]
        simp [hc]
      · rw [if_neg hc] at h
        exact absurd h (by simp)

/-- Taking the parent removes exactly one slash. -/
theorem slashCount_parent {p q : String} (h : parentOf p = some q) :
    slashCount p = slashCount q + 1 := by
  unfold parentOf at h
  cases hb : beforeLastSlash p.data with
  | none =>
    rw [hb] at h
    simp at h
  | some cs =>
    rw [hb] at h
    simp at h
    show p.data.count '/' = q.data.count '/' + 1
    rw [← h]
    exact beforeLastSlash_count hb

/-- A root-level path has no slash. -/
theorem slashCount_zero {p : String} (h : parentOf p = none) : slashCount p = 0 := by
  unfold parentOf at h
  cases hb : beforeLastSlash p.data with
  | none => exact beforeLastSlash_none_count hb
  | some cs =>
    rw [hb] at h
    simp at h

/-- The ancestor chain has one entry per slash: its length is the node's
depth whenever the depth equals the number of slashes, as in the walk's
output. -/
theorem ancestorChain_length : ∀ (p : String),
    (ancestorChain p).length = slashCount p
  | p => by
    rw [ancestorChain_unfold]
    cases hpo : parentOf p with
    | none => simp [slashCount_zero hpo]
    | some q =>
      have hlt : q.length < p.length := parentOf_length hpo
      simp only [List.length_cons, ancestorChain_length q, slashCount_parent hpo]
  termination_by p => p.length

/-- findPos on a strictly increasing list that contains i: the found position
is not the last one exactly when some member exceeds i. -/
theorem findPos_lastSib : ∀ (l : List Nat), l.Pairwise (· < ·) → ∀ i, i ∈ l →
    ∃ pos, findPos (fun x => decide (x = i)) l = some pos ∧
      (pos + 1 < l.length ↔ ∃ j ∈ l, i < j)
  | [], _, i, him => absurd him (List.not_mem_nil i)
  | a :: t, hp, i, him => by
    by_cases hai : a = i
    · refine ⟨0, by simp [findPos, hai], ?_⟩
      constructor
      · intro hlen
        have ht : t ≠ [] := by
          intro h
          rw [h] at hlen
          simp at hlen
        obtain ⟨b, hb⟩ := List.exists_mem_of_ne_nil t ht
        exact ⟨b, List.mem_cons_of_mem a hb, hai ▸ (List.pairwise_cons.mp hp).1 b hb⟩
      · rintro ⟨j, hj, hij⟩
        rcases List.mem_cons.mp hj with rfl | hj
        · omega
        · have hpos : 0 < t.length := List.length_pos.mpr (List.ne_nil_of_mem hj)
          simpa using hpos
    · have him2 : i ∈ t := by
        rcases List.mem_cons.mp him with rfl | h
        · exact absurd rfl hai
        · exact h
      obtain ⟨pos, h1, h2⟩ := findPos_lastSib t (List.pairwise_cons.mp hp).2 i him2
      refine ⟨pos + 1, ?_, ?_⟩
      · simp [findPos, hai, h1]
      · have hat : a < i := (List.pairwise_cons.mp hp).1 i him2
        constructor
        · intro hlen
          obtain ⟨j, hj, hij⟩ := h2.mp (by simpa using hlen)
          exact ⟨j, List.mem_cons_of_mem a hj, hij⟩
        · rintro ⟨j, hj, hij⟩
          rcases List.mem_cons.mp hj with rfl | hj
          · omega
          · have := h2.mpr ⟨j, hj, hij⟩
            simpa using this

/-- A node has a later sibling when some strictly later node index shares its
parent key (the spec's notion of a later sibling inside the node's own parent
group). -/
def HasLaterSib (paths : List String) (a : String) : Prop :=
  ∃ i j, i < j ∧ j < paths.length ∧ paths.getD i "" = a ∧
    parentKeyStr (paths.getD j "") = parentKeyStr a

/-- On a duplicate-free node list, one loop iteration for a discovered
ancestor pushes exactly one flag, true exactly when the ancestor has a later
sibling. -/
theorem contStep_spec (paths : List String) (hnodup : paths.Nodup) (a : String)
    (ha : a ∈ paths) :
    ∃ b, contStep paths a = [b] ∧ (b = true ↔ HasLaterSib paths a) := by
  obtain ⟨ia, hia, hget⟩ := List.mem_iff_getElem.mp ha
  have hgetD : paths.getD ia "" = a := by rw [getD_eq_elem paths "" ia hia, hget]
  obtain ⟨m, hlastm, hmn, hpm, _⟩ :=
    getLast_filter_range_spec (fun i => decide (paths.getD i "" = a)) paths.length ia hia
      (by rw [decide_eq_true_iff]; exact hgetD)
  have hgetm : paths.getD m "" = a := of_decide_eq_true hpm
  have hmem : m ∈ siblingsOf paths (parentKeyStr a) := by
    unfold siblingsOf
    rw [List.mem_filter]
    refine ⟨List.mem_range.mpr hmn, ?_⟩
    rw [hgetm]
    simp
  have hsorted : (siblingsOf paths (parentKeyStr a)).Pairwise (· < ·) :=
    List.Pairwise.filter _ (List.pairwise_lt_range _)
  obtain ⟨pos, hfind, hiff⟩ :=
    findPos_lastSib (siblingsOf paths (parentKeyStr a)) hsorted m hmem
  refine ⟨decide (pos + 1 < (siblingsOf paths (parentKeyStr a)).length), ?_, ?_⟩
  · unfold contStep
    unfold pathToIndex
    rw [hlastm]
    simp only
    rw [hfind]
  · rw [decide_eq_true_iff]
    rw [hiff]
    constructor
    · rintro ⟨j, hj, hmj⟩
      unfold siblingsOf at hj
      rw [List.mem_filter, List.mem_range] at hj
      exact ⟨m, j, hmj, hj.1, hgetm, of_decide_eq_true hj.2⟩
    · rintro ⟨i, j, hij, hjn, hgeti, hkeyj⟩
      have hin : i < paths.length := by omega
      have him : i = m := by
        have e1 : paths[i] = a := by rw [← getD_eq_elem paths "" i hin, hgeti]
        have e2 : paths[m] = a := by rw [← getD_eq_elem paths "" m hmn, hgetm]
        exact (List.Nodup.getElem_inj_iff hnodup).mp (e2 ▸ e1)
      refine ⟨j, ?_, him ▸ hij⟩
      unfold siblingsOf
      rw [List.mem_filter, List.mem_range]
      exact ⟨hjn, by rw [decide_eq_true_iff]; exact hkeyj⟩

/-- Concatenating singleton blocks: the k-th block is the k-th entry. -/
theorem flatMap_singleton_spec (f : String → List Bool) :
    ∀ (L : List String), (∀ a ∈ L, ∃ b, f a = [b]) →
      (L.flatMap f).length = L.length ∧
      ∀ k, k < L.length →
        ∃ b, f (L.getD k "") = [b] ∧ (L.flatMap f).getD k false = b
  | [], _ => ⟨rfl, fun k hk => absurd hk (by simp)⟩
  | a :: t, h => by
    obtain ⟨b, hb⟩ := h a (List.mem_cons_self a t)
    obtain ⟨hlen, hent⟩ :=
      flatMap_singleton_spec f t (fun x hx => h x (List.mem_cons_of_mem a hx))
    constructor
    · simp [List.flatMap_cons, hb, hlen]
    · intro k hk
      cases k with
      | zero => exact ⟨b, hb, by simp [List.flatMap_cons, hb]⟩
      | succ k2 =>
        obtain ⟨b2, hb2, hv⟩ := hent k2 (by simpa using hk)
        refine ⟨b2, by simpa using hb2, ?_⟩
        simp only [List.flatMap_cons, hb, List.singleton_append, List.getD_cons_succ]
        exact hv

/-- C4: on a duplicate-free, ancestor-closed node list whose recorded depths
equal the slash counts (all guaranteed by the depth-first scan), every node's
ancestor_continuations has length exactly its depth and, nearest-ancestor
first, entry k is true exactly when the k-th ancestor has a later sibling in
its own parent group. -/
theorem c4_continuations (nodes : List (String × Nat))
    (hnodup : (nodes.map Prod.fst).Nodup)
    (hclosed : ∀ p ∈ nodes.map Prod.fst, ∀ a ∈ ancestorChain p,
      a ∈ nodes.map Prod.fst)
    (hdepth : ∀ pd ∈ nodes, pd.2 = slashCount pd.1) :
    ∀ pd ∈ nodes,
      (ancestorConts (nodes.map Prod.fst) pd.1).length = pd.2 ∧
      ∀ k, k < pd.2 →
        ((ancestorConts (nodes.map Prod.fst) pd.1).getD k false = true ↔
          HasLaterSib (nodes.map Prod.fst) ((ancestorChain pd.1).getD k "")) := by
  intro pd hpd
  have hp : pd.1 ∈ nodes.map Prod.fst := List.mem_map_of_mem Prod.fst hpd
  have hstep : ∀ a ∈ ancestorChain pd.1, ∃ b, contStep (nodes.map Prod.fst) a = [b] := by
    intro a ha
    obtain ⟨b, hb, _⟩ := contStep_spec (nodes.map Prod.fst) hnodup a (hclosed pd.1 hp a ha)
    exact ⟨b, hb⟩
  obtain ⟨hlen, hent⟩ :=
    flatMap_singleton_spec (contStep (nodes.map Prod.fst)) (ancestorChain pd.1) hstep
  have hchainlen : (ancestorChain pd.1).length = pd.2 := by
    rw [ancestorChain_length, hdepth pd hpd]
  constructor
  · show ((ancestorChain pd.1).flatMap (contStep (nodes.map Prod.fst))).length = pd.2
    rw [hlen, hchainlen]
  · intro k hk
    have hk2 : k < (ancestorChain pd.1).length := by omega
    obtain ⟨b, hb, hv⟩ := hent k hk2
    have hmem : (ancestorChain pd.1).getD k "" ∈ ancestorChain pd.1 := by
      rw [getD_eq_elem _ "" k hk2]
      exact List.getElem_mem hk2
    obtain ⟨b2, hb2, hiff⟩ := contStep_spec (nodes.map Prod.fst) hnodup _
      (hclosed pd.1 hp _ hmem)
    have hbb : b = b2 := by
      have := hb.symm.trans hb2
      exact (List.cons.inj this).1
    have hval : (ancestorConts (nodes.map Prod.fst) pd.1).getD k false = b := hv
    rw [hval, hbb]
    exact hiff

/-- Witness for C4: the C3 scenario's node list satisfies all three scan
properties, and the grandchild node gets a continuation sequence of length
equal to its depth 2 whose entry 0 reflects child's later sibling child2. -/
theorem c4_continuations_witness :
    (ancestorConts ((listTasks treeC3).map Prod.fst) "parent/child/grandchild").length = 2 ∧
    ((ancestorConts ((listTasks treeC3).map Prod.fst)
        "parent/child/grandchild").getD 0 false = true ↔
      HasLaterSib ((listTasks treeC3).map Prod.fst)
        ((ancestorChain "parent/child/grandchild").getD 0 "")) := by
  have h := c4_continuations (listTasks treeC3) (by decide) (by decide) (by decide)
    ("parent/child/grandchild", 2) (by decide)
  exact ⟨h.1, h.2 0 (by decide)⟩

/-! ### Claim C6: highlight_line -/

/-- An alphabetic character is not the escape character. -/
theorem alpha_ne_esc {c : Char} (h : c.isAlpha = true) : ¬ c = escChar := by
  intro he
  rw [he] at h
  exact absurd h (by decide)

/-- Scanner step: the plain state holds an escape back. -/
theorem stripGo_plain_esc (y : List Char) :
    stripGo .plain (escChar :: y) = stripGo .afterEsc y := by
  simp [stripGo]

/-- Scanner step: a non-escape character is kept. -/
theorem stripGo_plain_ne (c : Char) (h : ¬ c = escChar) (y : List Char) :
    stripGo .plain (c :: y) = c :: stripGo .plain y := by
  simp [stripGo, h]

/-- Scanner step: a bracket after the escape enters the CSI. -/
theorem stripGo_afterEsc_br (y : List Char) :
    stripGo .afterEsc ('[' :: y) = stripGo .inCsi y := by
  simp [stripGo]

/-- Scanner step: the alphabetic terminator leaves the CSI. -/
theorem stripGo_inCsi_alpha (c : Char) (h : c.isAlpha = true) (y : List Char) :
    stripGo .inCsi (c :: y) = stripGo .plain y := by
  simp [stripGo, h]

/-- Scanner step: a non-alphabetic character is dropped inside the CSI. -/
theorem stripGo_inCsi_na (c : Char) (h : c.isAlpha = false) (y : List Char) :
    stripGo .inCsi (c :: y) = stripGo .inCsi y := by
  simp [stripGo, h]

/-- The background sequence strips to nothing in front of anything. -/
theorem stripGo_bg_pre (x : List Char) :
    stripGo .plain (bgSeq ++ x) = stripGo .plain x := rfl

/-- The reset sequence strips to nothing in front of anything. -/
theorem stripGo_reset_pre (x : List Char) :
    stripGo .plain (resetSeq ++ x) = stripGo .plain x := rfl

/-- Padding spaces followed by the final reset strip to the spaces. -/
theorem stripGo_spaces (k : Nat) :
    stripGo .plain (List.replicate k ' ' ++ resetSeq) = List.replicate k ' ' := by
  induction k with
  | zero => rfl
  | succ n ih =>
    rw [List.replicate_succ, List.cons_append, stripGo_plain_ne ' ' (by decide), ih,
      ← List.replicate_succ]

/-- The escape-free characters and complete CSI sequences of a clean line
strip independently of what follows. -/
theorem strip_hom (x : List Char) : ∀ (l : List Char),
    (cleanGo .plain l = true →
      stripGo .plain (l ++ x) = stripGo .plain l ++ stripGo .plain x) ∧
    (cleanGo .afterEsc l = true →
      stripGo .afterEsc (l ++ x) = stripGo .afterEsc l ++ stripGo .plain x) ∧
    (cleanGo .inCsi l = true →
      stripGo .inCsi (l ++ x) = stripGo .inCsi l ++ stripGo .plain x)
  | [] => ⟨fun _ => rfl, fun h => absurd h (by decide), fun h => absurd h (by decide)⟩
  | c :: rest => by
    obtain ⟨ihp, ihe, ihc⟩ := strip_hom x rest
    refine ⟨?_, ?_, ?_⟩
    · intro hc
      by_cases he : c = escChar
      · subst he
        rw [List.cons_append, stripGo_plain_esc, stripGo_plain_esc]
        exact ihe (by simpa [cleanGo] using hc)
      · rw [List.cons_append, stripGo_plain_ne c he, stripGo_plain_ne c he,
          List.cons_append]
        rw [ihp (by simpa [cleanGo, he] using hc)]
    · intro hc
      by_cases hb : c = '['
      · subst hb
        rw [List.cons_append, stripGo_afterEsc_br, stripGo_afterEsc_br]
        exact ihc (by simpa [cleanGo] using hc)
      · exact absurd hc (by simp [cleanGo, hb])
    · intro hc
      by_cases ha : c.isAlpha = true
      · rw [List.cons_append, stripGo_inCsi_alpha c ha, stripGo_inCsi_alpha c ha]
        exact ihp (by simpa [cleanGo, ha] using hc)
      · have ha2 : c.isAlpha = false := by
          cases h : c.isAlpha
          · rfl
          · exact absurd h ha
        by_cases he : c = escChar
        · subst he
          rw [show cleanGo .inCsi (escChar :: rest) = false from rfl] at hc
          exact Bool.noConfusion hc
        · rw [List.cons_append, stripGo_inCsi_na c ha2, stripGo_inCsi_na c ha2]
          exact ihc (by simpa [cleanGo, ha2, he] using hc)

/-- Replacement passes over a non-escape head character. -/
theorem replaceResets_cons_ne (c : Char) (h : ¬ c = escChar) (rest : List Char) :
    replaceResets (c :: rest) = c :: replaceResets rest := by
  rw [replaceResets.eq_def]
  split
  · next r heq =>
    exact absurd (List.cons.inj heq).1 h
  · next c2 r2 heq =>
    rw [(List.cons.inj heq).1, (List.cons.inj heq).2]
  · next heq => exact absurd heq (by simp)

/-- Replacement passes over a held escape that does not open a reset. -/
theorem replaceResets_esc_notreset (w : List Char)
    (h : ∀ r, ¬ w = '[' :: '0' :: 'm' :: r) :
    replaceResets (escChar :: w) = escChar :: replaceResets w := by
  rw [replaceResets.eq_def]
  split
  · next r heq =>
    exact absurd (List.cons.inj heq).2 (h r)
  · next c2 r2 heq =>
    rw [← (List.cons.inj heq).1, ← (List.cons.inj heq).2]
  · next heq => exact absurd heq (by simp)

/-- Replacement passes over a block of escape-free characters. -/
theorem replaceResets_skip : ∀ (s : List Char), (∀ c ∈ s, ¬ c = escChar) →
    ∀ (y : List Char), replaceResets (s ++ y) = s ++ replaceResets y
  | [], _, y => rfl
  | c :: s2, hs, y => by
    rw [List.cons_append, replaceResets_cons_ne c (hs c (List.mem_cons_self c s2)) _,
      replaceResets_skip s2 (fun d hd => hs d (List.mem_cons_of_mem c hd)) y,
      List.cons_append]

/-- A clean line whose head is an escape continues with a bracket and a clean
CSI body. -/
theorem cleanPlain_esc_decomp (rest : List Char)
    (h : cleanGo .plain (escChar :: rest) = true) :
    ∃ rest2, rest = '[' :: rest2 ∧ cleanGo .inCsi rest2 = true := by
  have h2 : cleanGo .afterEsc rest = true := by simpa [cleanGo] using h
  cases rest with
  | nil => exact absurd h2 (by decide)
  | cons c2 r2 =>
    by_cases hb : c2 = '['
    · subst hb
      exact ⟨r2, rfl, by simpa [cleanGo] using h2⟩
    · exact absurd h2 (by simp [cleanGo, hb])

/-- A clean CSI body is non-alphabetic non-escape characters, an alphabetic
terminator, then a clean remainder. -/
theorem cleanInCsi_decomp : ∀ (r : List Char), cleanGo .inCsi r = true →
    ∃ mid a rest3, r = mid ++ a :: rest3 ∧
      (∀ c ∈ mid, c.isAlpha = false ∧ ¬ c = escChar) ∧
      a.isAlpha = true ∧ cleanGo .plain rest3 = true
  | [], h => absurd h (by decide)
  | c :: r2, h => by
    by_cases ha : c.isAlpha = true
    · refine ⟨[], c, r2, rfl, by simp, ha, ?_⟩
      simpa [cleanGo, ha] using h
    · have ha2 : c.isAlpha = false := by
        cases hcc : c.isAlpha
        · rfl
        · exact absurd hcc ha
      by_cases he : c = escChar
      · subst he
        rw [show cleanGo .inCsi (escChar :: r2) = false from rfl] at h
        exact Bool.noConfusion h
      · obtain ⟨mid, a, rest3, hr, hmid, haa, hcl⟩ :=
          cleanInCsi_decomp r2 (by simpa [cleanGo, ha2, he] using h)
        refine ⟨c :: mid, a, rest3, by rw [hr, List.cons_append], ?_, haa, hcl⟩
        intro d hd
        rcases List.mem_cons.mp hd with rfl | hd
        · exact ⟨ha2, he⟩
        · exact hmid d hd

/-- Stripping drops a block of non-alphabetic characters inside a CSI. -/
theorem stripGo_inCsi_skip : ∀ (mid : List Char), (∀ c ∈ mid, c.isAlpha = false) →
    ∀ (y : List Char), stripGo .inCsi (mid ++ y) = stripGo .inCsi y
  | [], _, _ => rfl
  | c :: m2, h, y => by
    rw [List.cons_append, stripGo_inCsi_na c (h c (List.mem_cons_self c m2)),
      stripGo_inCsi_skip m2 (fun d hd => h d (List.mem_cons_of_mem c hd)) y]

/-- On a clean line, stripping after reset-replacement equals stripping the
line itself: every inserted background sequence is a complete CSI that strips
to nothing, so the replacement never changes the visible characters. -/
theorem strip_repl_clean : ∀ (l : List Char), cleanGo .plain l = true →
    ∀ (x : List Char),
      stripGo .plain (replaceResets l ++ x) = stripGo .plain l ++ stripGo .plain x
  | [], _, x => rfl
  | c :: rest, hc, x => by
    by_cases he : c = escChar
    · subst he
      obtain ⟨rest2, hr2, hcsi⟩ := cleanPlain_esc_decomp rest hc
      subst hr2
      by_cases hreset : ∃ r, rest2 = '0' :: 'm' :: r
      · obtain ⟨r, hr⟩ := hreset
        subst hr
        have hcr : cleanGo .plain r = true := hcsi
        have hrepl : replaceResets (escChar :: '[' :: '0' :: 'm' :: r)
            = resetSeq ++ (bgSeq ++ replaceResets r) := rfl
        rw [hrepl, List.append_assoc, List.append_assoc, stripGo_reset_pre,
          stripGo_bg_pre, strip_repl_clean r hcr x,
          show stripGo .plain (escChar :: '[' :: '0' :: 'm' :: r)
            = stripGo .plain r from rfl]
      · obtain ⟨mid, a, rest3, hdec, hmid, ha, hcl3⟩ := cleanInCsi_decomp rest2 hcsi
        have hrepl : replaceResets (escChar :: '[' :: rest2)
            = escChar :: '[' :: (mid ++ a :: replaceResets rest3) := by
          rw [replaceResets_esc_notreset ('[' :: rest2)
              (by intro r hw; exact hreset ⟨r, (List.cons.inj hw).2⟩),
            replaceResets_cons_ne '[' (by decide) rest2, hdec,
            replaceResets_skip mid (fun d hd => (hmid d hd).2) (a :: rest3),
            replaceResets_cons_ne a (alpha_ne_esc ha) rest3]
        rw [hrepl, List.cons_append, List.cons_append, stripGo_plain_esc,
          stripGo_afterEsc_br, List.append_assoc,
          stripGo_inCsi_skip mid (fun d hd => (hmid d hd).1), List.cons_append,
          stripGo_inCsi_alpha a ha, strip_repl_clean rest3 hcl3 x, hdec,
          stripGo_plain_esc, stripGo_afterEsc_br,
          stripGo_inCsi_skip mid (fun d hd => (hmid d hd).1),
          stripGo_inCsi_alpha a ha]
    · have hcr : cleanGo .plain rest = true := by simpa [cleanGo, he] using hc
      rw [replaceResets_cons_ne c he rest, List.cons_append, stripGo_plain_ne c he,
        strip_repl_clean rest hcr x, stripGo_plain_ne c he, List.cons_append]
termination_by l => l.length
decreasing_by
  · simp [hr2, hr]
    omega
  · simp [hr2, hdec]
    omega
  · simp

/-- A reset occurrence cannot start inside a block of escape-free characters:
the block is entirely consumed before the occurrence. -/
theorem skipNoEsc : ∀ (s : List Char), (∀ c ∈ s, ¬ c = escChar) →
    ∀ (y u v : List Char), s ++ y = u ++ resetSeq ++ v →
      ∃ u2, u = s ++ u2 ∧ y = u2 ++ resetSeq ++ v
  | [], _, y, u, v, h => ⟨u, rfl, h⟩
  | c :: s2, hs, y, u, v, h => by
    cases u with
    | nil =>
      exfalso
      rw [List.nil_append] at h
      have hce : c = escChar := by
        rw [List.cons_append] at h
        rw [show resetSeq ++ v = escChar :: ('[' :: '0' :: 'm' :: v) from rfl] at h
        exact (List.cons.inj h).1
      exact hs c (List.mem_cons_self c s2) hce
    | cons d u2 =>
      rw [List.cons_append] at h
      rw [List.append_assoc, List.cons_append] at h
      have hinj := List.cons.inj h
      obtain ⟨u3, hu, hy⟩ := skipNoEsc s2
        (fun e head => hs e (List.mem_cons_of_mem c head)) y u2 v
        (by rw [hinj.2, List.append_assoc])
      exact ⟨u3, by rw [hinj.1, hu, List.cons_append], hy⟩

/-- Inside the padding and the closing reset, the only reset occurrence is
the final one. -/
theorem spaces_reset_tailOK (k : Nat) : ∀ (u v : List Char),
    List.replicate k ' ' ++ resetSeq = u ++ resetSeq ++ v → v = [] := by
  intro u v h
  obtain ⟨u2, _, hy⟩ := skipNoEsc (List.replicate k ' ')
    (by
      intro c hcm hce
      have := List.eq_of_mem_replicate hcm
      rw [this] at hce
      exact absurd hce (by decide))
    resetSeq u v h
  have hlen := congrArg List.length hy
  rw [List.length_append, List.length_append] at hlen
  rw [show resetSeq.length = 4 from rfl] at hlen
  have : v.length = 0 := by omega
  exact List.length_eq_zero.mp this

/-- Every reset occurrence in the replaced clean line followed by a
well-behaved tail is either the final closing reset or immediately followed
by the background sequence: resets in a clean line are exactly its reset-CSI
segments, each replaced by reset-then-background, and no new occurrence can
arise across boundaries. -/
theorem repl_reset_followed : ∀ (l : List Char), cleanGo .plain l = true →
    ∀ (tail : List Char), (∀ u v, tail = u ++ resetSeq ++ v → v = []) →
    ∀ (u v : List Char), replaceResets l ++ tail = u ++ resetSeq ++ v →
      v = [] ∨ bgSeq <+: v
  | [], _, tail, htail, u, v, h => Or.inl (htail u v h)
  | c :: rest, hc, tail, htail, u, v, h => by
    by_cases he : c = escChar
    · subst he
      obtain ⟨rest2, hr2, hcsi⟩ := cleanPlain_esc_decomp rest hc
      subst hr2
      by_cases hreset : ∃ r, rest2 = '0' :: 'm' :: r
      · obtain ⟨r, hr⟩ := hreset
        subst hr
        have hcr : cleanGo .plain r = true := hcsi
        have hre : replaceResets (escChar :: '[' :: '0' :: 'm' :: r) ++ tail
            = escChar :: ('[' :: '0' :: 'm'
              :: (bgSeq ++ (replaceResets r ++ tail))) := rfl
        rw [hre] at h
        cases u with
        | nil =>
          rw [List.nil_append,
            show resetSeq ++ v = escChar :: ('[' :: '0' :: 'm' :: v) from rfl] at h
          have h1 := (List.cons.inj h).2
          have h2 := (List.cons.inj h1).2
          have h3 := (List.cons.inj h2).2
          have h4 := (List.cons.inj h3).2
          exact Or.inr ⟨replaceResets r ++ tail, h4⟩
        | cons d u2 =>
          rw [show (d :: u2) ++ resetSeq ++ v = d :: (u2 ++ (resetSeq ++ v)) from by
            simp [List.append_assoc]] at h
          have hinj := List.cons.inj h
          obtain ⟨u3, _, hy3⟩ := skipNoEsc ['[', '0', 'm'] (by decide)
            (bgSeq ++ (replaceResets r ++ tail)) u2 v
            (by
              rw [show (['[', '0', 'm'] : List Char)
                  ++ (bgSeq ++ (replaceResets r ++ tail))
                  = '[' :: '0' :: 'm' :: (bgSeq ++ (replaceResets r ++ tail)) from rfl,
                hinj.2, List.append_assoc])
          cases u3 with
          | nil =>
            exfalso
            rw [List.nil_append,
              show bgSeq ++ (replaceResets r ++ tail) = escChar :: '[' :: '4'
                :: ('8' :: ';' :: '5' :: ';' :: '2' :: '3' :: '7' :: 'm'
                  :: (replaceResets r ++ tail)) from rfl,
              show resetSeq ++ v = escChar :: '[' :: '0' :: 'm' :: v from rfl] at hy3
            have g1 := (List.cons.inj hy3).2
            have g2 := (List.cons.inj g1).2
            exact absurd (List.cons.inj g2).1 (by decide)
          | cons e u4 =>
            rw [show bgSeq ++ (replaceResets r ++ tail) = escChar
                :: ((['[', '4', '8', ';', '5', ';', '2', '3', '7', 'm'] : List Char)
                  ++ (replaceResets r ++ tail)) from rfl,
              show (e :: u4) ++ resetSeq ++ v = e :: (u4 ++ (resetSeq ++ v)) from by
                simp [List.append_assoc]] at hy3
            have hinj2 := List.cons.inj hy3
            obtain ⟨u5, _, hy5⟩ := skipNoEsc
              ['[', '4', '8', ';', '5', ';', '2', '3', '7', 'm'] (by decide)
              (replaceResets r ++ tail) u4 v
              (by rw [hinj2.2, List.append_assoc])
            exact repl_reset_followed r hcr tail htail u5 v hy5
      · obtain ⟨mid, a, rest3, hdec, hmid, ha, hcl3⟩ := cleanInCsi_decomp rest2 hcsi
        have hre : replaceResets (escChar :: '[' :: rest2) ++ tail
            = escChar :: ('[' :: (mid ++ (a :: (replaceResets rest3 ++ tail)))) := by
          rw [replaceResets_esc_notreset ('[' :: rest2)
              (fun r hw => hreset ⟨r, (List.cons.inj hw).2⟩),
            replaceResets_cons_ne '[' (by decide) rest2, hdec,
            replaceResets_skip mid (fun d hd => (hmid d hd).2) (a :: rest3),
            replaceResets_cons_ne a (alpha_ne_esc ha) rest3]
          simp [List.append_assoc]
        rw [hre] at h
        cases u with
        | nil =>
          exfalso
          rw [List.nil_append,
            show resetSeq ++ v = escChar :: ('[' :: '0' :: 'm' :: v) from rfl] at h
          have h1 := (List.cons.inj h).2
          have h2 := (List.cons.inj h1).2
          cases mid with
          | nil =>
            rw [List.nil_append] at h2
            have ha0 := (List.cons.inj h2).1
            rw [ha0] at ha
            exact absurd ha (by decide)
          | cons m0 mid2 =>
            rw [List.cons_append] at h2
            have h3 := (List.cons.inj h2).2
            cases mid2 with
            | nil =>
              rw [List.nil_append] at h3
              apply hreset
              refine ⟨rest3, ?_⟩
              rw [hdec, (List.cons.inj h2).1, (List.cons.inj h3).1]
              rfl
            | cons m1 mid3 =>
              rw [List.cons_append] at h3
              have hm1a := (hmid m1 (by simp)).1
              rw [(List.cons.inj h3).1] at hm1a
              exact absurd hm1a (by decide)
        | cons d u2 =>
          rw [show (d :: u2) ++ resetSeq ++ v = d :: (u2 ++ (resetSeq ++ v)) from by
            simp [List.append_assoc]] at h
          have hinj := List.cons.inj h
          obtain ⟨u5, _, hy5⟩ := skipNoEsc ('[' :: (mid ++ [a]))
            (by
              intro e hem
              rcases List.mem_cons.mp hem with rfl | hem
              · decide
              · rcases List.mem_append.mp hem with hem | hem
                · exact (hmid e hem).2
                · rw [List.mem_singleton.mp hem]
                  exact alpha_ne_esc ha)
            (replaceResets rest3 ++ tail) u2 v
            (by
              rw [show ('[' :: (mid ++ [a])) ++ (replaceResets rest3 ++ tail)
                  = '[' :: (mid ++ (a :: (replaceResets rest3 ++ tail))) from by
                simp [List.append_assoc],
                hinj.2, List.append_assoc])
          exact repl_reset_followed rest3 hcl3 tail htail u5 v hy5
    · have hcr : cleanGo .plain rest = true := by simpa [cleanGo, he] using hc
      rw [replaceResets_cons_ne c he rest] at h
      cases u with
      | nil =>
        exfalso
        apply he
        rw [List.nil_append, List.cons_append,
          show resetSeq ++ v = escChar :: ('[' :: '0' :: 'm' :: v) from rfl] at h
        exact (List.cons.inj h).1
      | cons d u2 =>
        rw [List.cons_append,
          show (d :: u2) ++ resetSeq ++ v = d :: (u2 ++ (resetSeq ++ v)) from by
            simp [List.append_assoc]] at h
        exact repl_reset_followed rest hcr tail htail u2 v
          (by rw [(List.cons.inj h).2, List.append_assoc])
termination_by l => l.length
decreasing_by
  · simp [hr2, hr]
    omega
  · simp [hr2, hdec]
    omega
  · simp

/-- The rendered line used to refute the width part of C6: a depth-0 Todo
task named xx, whose visible width is 4. -/
def lineCex : List Char := (renderTask { name := "xx" }).data

/-- C6 counterexample: for the rendered line of the task xx and a one-column
frame, the padding computed by render is empty (the subtraction saturates)
and the highlighted output's visible width is the line's own width 4, not the
frame's column count 1. -/
theorem c6_highlight_width_cex :
    ¬ (stripAnsi (highlightLine lineCex
        (List.replicate (1 - (stripAnsi lineCex).length) ' '))).length = 1 := by
  decide

/-- C6 amended: for every line made of visible characters and complete CSI
sequences whose visible width fits the frame, the highlighted output starts
with the explicit background sequence, re-asserts that background immediately
after every embedded reset (every reset occurrence other than the final
closing one is followed by the background sequence), preserves the line's
visible characters followed by the appended spaces, and has visible width
exactly the frame's column count.  (When the line is wider than the frame no
spaces are appended and the visible width stays the line's own width.) -/
theorem c6_highlight_properties (line : List Char) (cols : Nat)
    (hclean : cleanLine line = true)
    (hfit : (stripAnsi line).length ≤ cols) :
    bgSeq <+: highlightLine line (List.replicate (cols - (stripAnsi line).length) ' ') ∧
    (∀ u v, highlightLine line (List.replicate (cols - (stripAnsi line).length) ' ')
        = u ++ resetSeq ++ v → v = [] ∨ bgSeq <+: v) ∧
    stripAnsi (highlightLine line (List.replicate (cols - (stripAnsi line).length) ' '))
      = stripAnsi line ++ List.replicate (cols - (stripAnsi line).length) ' ' ∧
    (stripAnsi (highlightLine line
        (List.replicate (cols - (stripAnsi line).length) ' '))).length = cols := by
  have htail : ∀ u v, List.replicate (cols - (stripAnsi line).length) ' ' ++ resetSeq
      = u ++ resetSeq ++ v → v = [] :=
    spaces_reset_tailOK (cols - (stripAnsi line).length)
  have hstrip : stripAnsi (highlightLine line
      (List.replicate (cols - (stripAnsi line).length) ' '))
      = stripAnsi line ++ List.replicate (cols - (stripAnsi line).length) ' ' := by
    show stripGo .plain (bgSeq ++ replaceResets line
      ++ List.replicate (cols - (stripAnsi line).length) ' ' ++ resetSeq) = _
    rw [List.append_assoc, List.append_assoc, stripGo_bg_pre,
      strip_repl_clean line hclean _, stripGo_spaces]
    rfl
  refine ⟨?_, ?_, hstrip, ?_⟩
  · refine ⟨replaceResets line
      ++ (List.replicate (cols - (stripAnsi line).length) ' ' ++ resetSeq), ?_⟩
    show _ = bgSeq ++ replaceResets line ++ _ ++ resetSeq
    simp [List.append_assoc]
  · intro u v h
    rw [show highlightLine line (List.replicate (cols - (stripAnsi line).length) ' ')
        = escChar :: ((['[', '4', '8', ';', '5', ';', '2', '3', '7', 'm'] : List Char)
          ++ (replaceResets line
            ++ (List.replicate (cols - (stripAnsi line).length) ' ' ++ resetSeq)))
        from by simp [highlightLine, bgSeq, escChar, List.append_assoc]] at h
    cases u with
    | nil =>
      exfalso
      rw [List.nil_append,
        show resetSeq ++ v = escChar :: ('[' :: '0' :: 'm' :: v) from rfl] at h
      have g1 := (List.cons.inj h).2
      have g2 := (List.cons.inj g1).2
      exact absurd (List.cons.inj g2).1 (by decide)
    | cons d u2 =>
      rw [show (d :: u2) ++ resetSeq ++ v = d :: (u2 ++ (resetSeq ++ v)) from by
        simp [List.append_assoc]] at h
      have hinj := List.cons.inj h
      obtain ⟨u3, _, hy3⟩ := skipNoEsc
        ['[', '4', '8', ';', '5', ';', '2', '3', '7', 'm'] (by decide)
        (replaceResets line
          ++ (List.replicate (cols - (stripAnsi line).length) ' ' ++ resetSeq)) u2 v
        (by rw [hinj.2, List.append_assoc])
      exact repl_reset_followed line hclean _ htail u3 v hy3
  · rw [hstrip, List.length_append, List.length_replicate]
    omega

/-- The task whose rendered line witnesses C6: a Done task named task
assigned to bob, whose line carries interior resets from the strikethrough
and assignee spans. -/
def taskC6 : TaskLine := { name := "task", assignedTo := some "bob", state := .Done }

/-- Witness for C6: the rendered line of taskC6 is clean, fits a 30-column
frame and highlights to visible width 30. -/
theorem c6_highlight_properties_witness :
    (stripAnsi (highlightLine (renderTask taskC6).data
        (List.replicate (30 - (stripAnsi (renderTask taskC6).data).length) ' '))).length
      = 30 :=
  (c6_highlight_properties (renderTask taskC6).data 30 (by decide) (by decide)).2.2.2
